import Mathlib

/-!
Verification of the `filter_compare` bloom-filter package.

The embedding follows `src/bloom_filter/bitset.go` and
`src/bloom_filter/bloom_filter.go`.  Go byte slices are `List Nat`
(each entry a byte value), Go `uint`/`uint64`/`uint32`/`int64` words are
`Nat` with explicit reduction modulo `2^64` (resp. `2^32`) wherever Go
arithmetic can wrap, and code paths that panic at runtime in Go
(modulo by zero, out-of-range slice or list access, redis errors routed
through `log.Fatalf`) are embedded as `Option`-returning functions that
yield `none` on those paths.
-/

namespace FilterCompare

/-! ### SHA-256

`HashData` first applies `crypto/sha256.Sum256` to the key.  The digest
is standard SHA-256 (FIPS 180-4), embedded here over `Nat` with 32-bit
words reduced modulo `2^32`.
-/

/-- 32-bit right rotate, reduced back into a 32-bit word. -/
def rotr32 (x n : Nat) : Nat := ((x >>> n) ||| (x <<< (32 - n))) % 4294967296

/-- Bitwise complement of a 32-bit word. -/
def not32 (x : Nat) : Nat := x ^^^ 4294967295

def sSig0 (x : Nat) : Nat := (rotr32 x 7) ^^^ (rotr32 x 18) ^^^ (x >>> 3)

def sSig1 (x : Nat) : Nat := (rotr32 x 17) ^^^ (rotr32 x 19) ^^^ (x >>> 10)

def bSig0 (x : Nat) : Nat := (rotr32 x 2) ^^^ (rotr32 x 13) ^^^ (rotr32 x 22)

def bSig1 (x : Nat) : Nat := (rotr32 x 6) ^^^ (rotr32 x 11) ^^^ (rotr32 x 25)

def chF (x y z : Nat) : Nat := (x &&& y) ^^^ ((not32 x) &&& z)

def majF (x y z : Nat) : Nat := (x &&& y) ^^^ (x &&& z) ^^^ (y &&& z)

/-- The 64 SHA-256 round constants, written in decimal. -/
def shaK : List Nat :=
  [1116352408, 1899447441, 3049323471, 3921009573, 961987163,
   1508970993, 2453635748, 2870763221, 3624381080, 310598401,
   607225278, 1426881987, 1925078388, 2162078206, 2614888103,
   3248222580, 3835390401, 4022224774, 264347078, 604807628,
   770255983, 1249150122, 1555081692, 1996064986, 2554220882,
   2821834349, 2952996808, 3210313671, 3336571891, 3584528711,
   113926993, 338241895, 666307205, 773529912, 1294757372,
   1396182291, 1695183700, 1986661051, 2177026350, 2456956037,
   2730485921, 2820302411, 3259730800, 3345764771, 3516065817,
   3600352804, 4094571909, 275423344, 430227734, 506948616,
   659060556, 883997877, 958139571, 1322822218, 1537002063,
   1747873779, 1955562222, 2024104815, 2227730452, 2361852424,
   2428436474, 2756734187, 3204031479, 3329325298]

/-- The SHA-256 initial hash value, written in decimal. -/
def shaInitH : List Nat :=
  [1779033703, 3144134277, 1013904242, 2773480762, 1359893119,
   2600822924, 528734635, 1541459225]

/-- The 8 bytes of `v` in big-endian order (64-bit message length field). -/
def beBytes8 (v : Nat) : List Nat :=
  (List.range 8).map fun i => (v >>> (8 * (7 - i))) % 256

/-- SHA-256 message padding: append `0x80`, zeros up to 56 mod 64, then the
bit length as a big-endian 64-bit integer. -/
def shaPad (msg : List Nat) : List Nat :=
  msg ++ (128 :: List.replicate ((119 - msg.length % 64) % 64) 0) ++ beBytes8 (8 * msg.length)

/-- Big-endian 32-bit words of a byte list. -/
def bytesToWordsBE (l : List Nat) : List Nat :=
  (List.range (l.length / 4)).map fun i =>
    ((l.getD (4 * i) 0) <<< 24) ||| ((l.getD (4 * i + 1) 0) <<< 16) |||
      ((l.getD (4 * i + 2) 0) <<< 8) ||| (l.getD (4 * i + 3) 0)

/-- Next word of the SHA-256 message schedule. -/
def shaNextW (ws : List Nat) : Nat :=
  (sSig1 (ws.getD (ws.length - 2) 0) + ws.getD (ws.length - 7) 0 +
    sSig0 (ws.getD (ws.length - 15) 0) + ws.getD (ws.length - 16) 0) % 4294967296

/-- Extend the message schedule by `m` further words. -/
def shaExtend : List Nat → Nat → List Nat
  | ws, 0 => ws
  | ws, m + 1 => shaExtend (ws ++ [shaNextW ws]) m

/-- The eight working variables of the SHA-256 compression loop. -/
structure ShaState where
  a : Nat
  b : Nat
  c : Nat
  d : Nat
  e : Nat
  f : Nat
  g : Nat
  h : Nat
  deriving DecidableEq

/-- One SHA-256 compression round; `kw` is the pair of round constant and
schedule word. -/
def shaRound (st : ShaState) (kw : Nat × Nat) : ShaState :=
  let t1 := (st.h + bSig1 st.e + chF st.e st.f st.g + kw.1 + kw.2) % 4294967296
  let t2 := (bSig0 st.a + majF st.a st.b st.c) % 4294967296
  { a := (t1 + t2) % 4294967296, b := st.a, c := st.b, d := st.c,
    e := (st.d + t1) % 4294967296, f := st.e, g := st.f, h := st.g }

/-- Compress one 64-byte block into the running hash value. -/
def shaCompress (hs : List Nat) (block : List Nat) : List Nat :=
  let ws := shaExtend (bytesToWordsBE block) 48
  let st0 : ShaState :=
    ⟨hs.getD 0 0, hs.getD 1 0, hs.getD 2 0, hs.getD 3 0,
     hs.getD 4 0, hs.getD 5 0, hs.getD 6 0, hs.getD 7 0⟩
  let st := (shaK.zip ws).foldl shaRound st0
  [(hs.getD 0 0 + st.a) % 4294967296, (hs.getD 1 0 + st.b) % 4294967296,
   (hs.getD 2 0 + st.c) % 4294967296, (hs.getD 3 0 + st.d) % 4294967296,
   (hs.getD 4 0 + st.e) % 4294967296, (hs.getD 5 0 + st.f) % 4294967296,
   (hs.getD 6 0 + st.g) % 4294967296, (hs.getD 7 0 + st.h) % 4294967296]

/-- The 64-byte blocks of a padded message. -/
def shaBlocks (l : List Nat) : List (List Nat) :=
  (List.range (l.length / 64)).map fun i => (l.drop (64 * i)).take 64

/-- Big-endian bytes of a 32-bit word. -/
def wordBytesBE (w : Nat) : List Nat :=
  [(w >>> 24) % 256, (w >>> 16) % 256, (w >>> 8) % 256, w % 256]

/-- `crypto/sha256.Sum256`: the 32-byte SHA-256 digest of a byte list. -/
def sha256 (msg : List Nat) : List Nat :=
  (((shaBlocks (shaPad msg)).foldl shaCompress shaInitH).map wordBytesBE).flatten

/-! ### murmur3 (x64-128 variant, `Sum64`)

`HashData` feeds the 32-byte SHA-256 digest to
`murmur3.New64WithSeed(uint32(seed))` and takes `Sum64()`, which is the
first 64-bit half of the x64-128 murmur3 hash.  The input length is
always 32 bytes (two 16-byte blocks), so the tail path of the algorithm
(input length not a multiple of 16) is never exercised by this program
and is not modelled.
-/

def mmC1 : Nat := 9782798678568883157

def mmC2 : Nat := 5545529020109919103

def w64 : Nat := 18446744073709551616

/-- Left rotation of a 64-bit word. -/
def rotl64 (x r : Nat) : Nat := ((x <<< r) % w64) ||| (x >>> (64 - r))

/-- Little-endian 64-bit word of (up to) 8 bytes. -/
def leWord64 (l : List Nat) : Nat :=
  (l.getD 0 0) ||| ((l.getD 1 0) <<< 8) ||| ((l.getD 2 0) <<< 16) ||| ((l.getD 3 0) <<< 24) |||
    ((l.getD 4 0) <<< 32) ||| ((l.getD 5 0) <<< 40) ||| ((l.getD 6 0) <<< 48) |||
    ((l.getD 7 0) <<< 56)

/-- murmur3 64-bit finalization mix. -/
def fmix64 (x : Nat) : Nat :=
  let a := x ^^^ (x >>> 33)
  let b := (a * 18397679294719823053) % w64
  let c := b ^^^ (b >>> 33)
  let d := (c * 14181476777654086739) % w64
  d ^^^ (d >>> 33)

/-- One 16-byte block step of murmur3 x64-128. -/
def mmBlockStep (hp : Nat × Nat) (chunk : List Nat) : Nat × Nat :=
  let k1 := leWord64 (chunk.take 8)
  let k2 := leWord64 ((chunk.drop 8).take 8)
  let k1a := ((rotl64 ((k1 * mmC1) % w64) 31) * mmC2) % w64
  let h1a := hp.1 ^^^ k1a
  let h1b := ((rotl64 h1a 27) + hp.2) % w64
  let h1c := (h1b * 5 + 1390208809) % w64
  let k2a := ((rotl64 ((k2 * mmC2) % w64) 33) * mmC1) % w64
  let h2a := hp.2 ^^^ k2a
  let h2b := ((rotl64 h2a 31) + h1c) % w64
  let h2c := (h2b * 5 + 944331445) % w64
  (h1c, h2c)

/-- The 16-byte blocks of the murmur3 input. -/
def chunks16 (l : List Nat) : List (List Nat) :=
  (List.range (l.length / 16)).map fun i => (l.drop (16 * i)).take 16

/-- `murmur3.New64WithSeed(seed)` + `Write(data)` + `Sum64()` from
`github.com/spaolacci/murmur3`, for inputs whose length is a multiple of
16 bytes.  Both internal state words start at the seed; `Sum64` is the
final `h1`. -/
def murmur64WithSeed (seed : Nat) (data : List Nat) : Nat :=
  let hp := (chunks16 data).foldl mmBlockStep (seed, seed)
  let h1 := hp.1 ^^^ data.length
  let h2 := hp.2 ^^^ data.length
  let h1a := (h1 + h2) % w64
  let h2a := (h2 + h1a) % w64
  let h1b := fmix64 h1a
  let h2b := fmix64 h2a
  (h1b + h2b) % w64

/-- `HashData` from `bloom_filter.go`: SHA-256 the key, then the seeded
64-bit murmur3 hash of the digest.  The Go code converts the `uint` seed
to `uint32` before seeding murmur3. -/
def HashData (data : List Nat) (seed : Nat) : Nat :=
  murmur64WithSeed (seed % 4294967296) (sha256 data)

/-! ### Bit sets (`bitset.go`)

`BitSets` is a Go slice of `int64` words; words are embedded as their
64-bit patterns (`Nat` below `2^64`; only `|`, `^` and `==` are applied
to them, none of which wrap).  `Set`, `Unset` and `IsSet` index
`bs[index/64]` without a bounds check, so an out-of-range access is a Go
runtime panic, embedded as `none`. -/

abbrev BitSets := List Nat

/-- `NewBitSets(n)`: `make(BitSets, n/64+1)`, i.e. `n/64 + 1` zero words. -/
def NewBitSets (n : Nat) : BitSets := List.replicate (n / 64 + 1) 0

/-- `BitSets.Set`: `bs[index/64] |= 1 << (index%64)`. -/
def BitSets.Set (bs : BitSets) (index : Nat) : Option BitSets :=
  if index / 64 < bs.length then
    some (bs.set (index / 64) ((bs.getD (index / 64) 0) ||| (1 <<< (index % 64))))
  else none

/-- `BitSets.Unset`: `bs[index/64] ^= 1 << (index%64)` — an xor, i.e. a
bit toggle, not a clear. -/
def BitSets.Unset (bs : BitSets) (index : Nat) : Option BitSets :=
  if index / 64 < bs.length then
    some (bs.set (index / 64) ((bs.getD (index / 64) 0) ^^^ (1 <<< (index % 64))))
  else none

/-- `BitSets.IsSet`: `word := bs[index/64]; (word | 1<<(index%64)) == word`. -/
def BitSets.IsSet (bs : BitSets) (index : Nat) : Option Bool :=
  if index / 64 < bs.length then
    some (decide ((bs.getD (index / 64) 0) ||| (1 <<< (index % 64)) = bs.getD (index / 64) 0))
  else none

/-! ### Memory backend (`bloom_filter.go`) -/

structure MemoryBloomFilter where
  k : Nat
  bs : BitSets
  deriving DecidableEq

/-- `NewMemoryBloomFilter(n, k)`. -/
def NewMemoryBloomFilter (n k : Nat) : MemoryBloomFilter := ⟨k, NewBitSets n⟩

/-- The loop of `MemoryBloomFilter.Put`: for each seed `i`,
`bs.Set(HashData(data, i) % l)` where `l = len(filter.bs)`.  When
`l = 0` the Go expression `HashData(data, i) % l` is an integer division
by zero and panics. -/
def putLoop (data : List Nat) (l : Nat) : List Nat → BitSets → Option BitSets
  | [], bs => some bs
  | i :: rest, bs =>
    if l = 0 then none
    else
      match BitSets.Set bs (HashData data i % l) with
      | none => none
      | some bs2 => putLoop data l rest bs2

/-- `MemoryBloomFilter.Put`. -/
def MemoryBloomFilter.Put (filter : MemoryBloomFilter) (data : List Nat) :
    Option MemoryBloomFilter :=
  (putLoop data filter.bs.length (List.range filter.k) filter.bs).map fun bs =>
    ⟨filter.k, bs⟩

/-- The loop of `MemoryBloomFilter.Has`: short-circuits to `false` at the
first unset bit. -/
def hasLoop (data : List Nat) (l : Nat) (bs : BitSets) : List Nat → Option Bool
  | [] => some true
  | i :: rest =>
    if l = 0 then none
    else
      match BitSets.IsSet bs (HashData data i % l) with
      | none => none
      | some false => some false
      | some true => hasLoop data l bs rest

/-- `MemoryBloomFilter.Has`. -/
def MemoryBloomFilter.Has (filter : MemoryBloomFilter) (data : List Nat) : Option Bool :=
  hasLoop data filter.bs.length filter.bs (List.range filter.k)

/-- `MemoryBloomFilter.Close`: `filter.bs = nil` (a nil slice has length
zero, embedded as the empty list). -/
def MemoryBloomFilter.Close (filter : MemoryBloomFilter) : MemoryBloomFilter :=
  ⟨filter.k, []⟩

/-! ### File backend

The file backend embeds the memory filter and adds `store`/`reStore`
against a target path.  The filesystem is a map from paths to stored
word arrays; the gzip+gob encoder/decoder pair is external library code
treated as a black box, modelled as an identity round trip on the word
array. -/

abbrev FileSystem := String → Option BitSets

structure FileBloomFilter where
  mem : MemoryBloomFilter
  target : String
  deriving DecidableEq

/-- `FileBloomFilter.store`: serialize `filter.bs` to the target path. -/
def FileBloomFilter.store (filter : FileBloomFilter) (fs : FileSystem) : FileSystem :=
  fun p => if p = filter.target then some filter.mem.bs else fs p

/-- `FileBloomFilter.reStore`: if the target path does not exist the
filter is left as constructed; otherwise `filter.bs` is replaced by the
decoded word array. -/
def FileBloomFilter.reStore (filter : FileBloomFilter) (fs : FileSystem) : FileBloomFilter :=
  match fs filter.target with
  | none => filter
  | some bs => ⟨⟨filter.mem.k, bs⟩, filter.target⟩

/-- `NewFileBloomFilter(target, n, k)`. -/
def NewFileBloomFilter (target : String) (n k : Nat) (fs : FileSystem) : FileBloomFilter :=
  FileBloomFilter.reStore ⟨NewMemoryBloomFilter n k, target⟩ fs

/-- `FileBloomFilter.Close`: `store()` then `filter.bs = nil`. -/
def FileBloomFilter.Close (filter : FileBloomFilter) (fs : FileSystem) :
    FileBloomFilter × FileSystem :=
  (⟨⟨filter.mem.k, []⟩, filter.target⟩, FileBloomFilter.store filter fs)

/-- `Put` on a file filter is the promoted memory method. -/
def FileBloomFilter.Put (filter : FileBloomFilter) (data : List Nat) :
    Option FileBloomFilter :=
  (MemoryBloomFilter.Put filter.mem data).map fun m => ⟨m, filter.target⟩

/-- `Has` on a file filter is the promoted memory method. -/
def FileBloomFilter.Has (filter : FileBloomFilter) (data : List Nat) : Option Bool :=
  MemoryBloomFilter.Has filter.mem data

/-! ### Redis backend

The remote store is a map from redis keys to string lists (an absent key
is the empty list, matching `LLEN` = 0).  `LSET` on an out-of-range
index and `LINDEX` yielding a nil reply are redis errors routed through
`log.Fatalf` in the Go code, embedded as `none`.  The `cli` field only
records whether the filter still holds a client reference (`Close` sets
it to `nil`). -/

abbrev RedisStore := String → List String

structure RedisBloomFilter where
  cli : Bool
  n : Nat
  k : Nat
  deriving DecidableEq

/-- `redisKey()`: `fmt.Sprintf("_bloomfilter:n%d:k%d", n, k)`. -/
def redisKeyStr (n k : Nat) : String :=
  "_bloomfilter:n" ++ (Nat.repr n ++ (":k" ++ Nat.repr k))

def RedisBloomFilter.redisKey (filter : RedisBloomFilter) : String :=
  redisKeyStr filter.n filter.k

/-- Point update of a redis store. -/
def storeSet (st : RedisStore) (key : String) (v : List String) : RedisStore :=
  fun s => if s = key then v else st s

/-- The sentinel redigo sends for a `nil` argument: the empty string. -/
def unsetSentinel : String := ""

/-- The value `LSET` writes for a set bit. -/
def setSentinel : String := "1"

/-- `LSET key index value`: errors (→ `log.Fatalf`) when the index is out
of range. -/
def lset (st : RedisStore) (key : String) (index : Nat) (v : String) : Option RedisStore :=
  if index < (st key).length then some (storeSet st key ((st key).set index v)) else none

/-- `LINDEX key index`: a nil reply for an out-of-range index becomes
`redis.ErrNil` (→ `log.Fatalf`), embedded as `none`. -/
def lindex (st : RedisStore) (key : String) (index : Nat) : Option String :=
  (st key)[index]?

/-- `NewRedisBloomFilter(cli, n, k)`: if `LLEN(redisKey) != n`, `DEL` the
key and `LPUSH` `n` nil values (each sent as the empty string). -/
def NewRedisBloomFilter (n k : Nat) (st : RedisStore) : RedisBloomFilter × RedisStore :=
  let filter : RedisBloomFilter := ⟨true, n, k⟩
  if (st (RedisBloomFilter.redisKey filter)).length ≠ n then
    (filter, storeSet st (RedisBloomFilter.redisKey filter) (List.replicate n unsetSentinel))
  else (filter, st)

/-- The loop of `RedisBloomFilter.Put`: for each seed `i`,
`LSET redisKey (HashData(data, i) % n) "1"`; `% 0` panics. -/
def redisPutLoop (filter : RedisBloomFilter) (data : List Nat) :
    List Nat → RedisStore → Option RedisStore
  | [], st => some st
  | i :: rest, st =>
    if filter.n = 0 then none
    else
      match lset st (RedisBloomFilter.redisKey filter) (HashData data i % filter.n)
          setSentinel with
      | none => none
      | some st2 => redisPutLoop filter data rest st2

/-- `RedisBloomFilter.Put`; calling through a nil client is a Go runtime
panic. -/
def RedisBloomFilter.Put (filter : RedisBloomFilter) (data : List Nat) (st : RedisStore) :
    Option RedisStore :=
  if filter.cli then redisPutLoop filter data (List.range filter.k) st else none

/-- The loop of `RedisBloomFilter.Has`: reads
`LINDEX redisKey (HashData(data, i) % n)` and short-circuits to `false`
on any value other than `"1"`. -/
def redisHasLoop (filter : RedisBloomFilter) (data : List Nat) (st : RedisStore) :
    List Nat → Option Bool
  | [] => some true
  | i :: rest =>
    if filter.n = 0 then none
    else
      match lindex st (RedisBloomFilter.redisKey filter) (HashData data i % filter.n) with
      | none => none
      | some v => if v = setSentinel then redisHasLoop filter data st rest else some false

/-- `RedisBloomFilter.Has`. -/
def RedisBloomFilter.Has (filter : RedisBloomFilter) (data : List Nat) (st : RedisStore) :
    Option Bool :=
  if filter.cli then redisHasLoop filter data st (List.range filter.k) else none

/-- `RedisBloomFilter.Close`: only `filter.cli = nil`; no command reaches
the remote store. -/
def RedisBloomFilter.Close (filter : RedisBloomFilter) (st : RedisStore) :
    RedisBloomFilter × RedisStore :=
  (⟨false, filter.n, filter.k⟩, st)

/-- A fresh remote store: no key holds a list. -/
def emptyStore : RedisStore := fun _ => []

/-- A fresh filesystem: no path exists. -/
def emptyFS : FileSystem := fun _ => none

/-- The store right after constructing a remote filter with `(n, k) = (1, 1)`
against a fresh remote store. -/
def c3store0 : RedisStore :=
  storeSet emptyStore (redisKeyStr 1 1) (List.replicate 1 unsetSentinel)

/-- `c3store0` after one put: the single list element holds the set
sentinel. -/
def c3store1 : RedisStore := storeSet c3store0 (redisKeyStr 1 1) [setSentinel]

/-- Fold a sequence of puts over a memory filter. -/
def memPuts : List (List Nat) → MemoryBloomFilter → Option MemoryBloomFilter
  | [], f => some f
  | y :: rest, f =>
    match MemoryBloomFilter.Put f y with
    | none => none
    | some f2 => memPuts rest f2

/-- Fold a sequence of puts over a file filter. -/
def filePuts : List (List Nat) → FileBloomFilter → Option FileBloomFilter
  | [], f => some f
  | y :: rest, f =>
    match FileBloomFilter.Put f y with
    | none => none
    | some f2 => filePuts rest f2

/-- Fold a sequence of puts by one redis filter over the store. -/
def redisPuts (filter : RedisBloomFilter) : List (List Nat) → RedisStore → Option RedisStore
  | [], st => some st
  | y :: rest, st =>
    match RedisBloomFilter.Put filter y st with
    | none => none
    | some st2 => redisPuts filter rest st2

/-- A fixed target path used in concrete instances. -/
def tgtPath : String := "bloom.tmp"

/-- Bit `index` is set in the packed words `bs`: exactly the test
`IsSet` performs. -/
def maskSet (bs : BitSets) (index : Nat) : Prop :=
  (bs.getD (index / 64) 0) ||| (1 <<< (index % 64)) = bs.getD (index / 64) 0

/-- List element `j` of the remote list under `key` holds the set
sentinel `"1"`. -/
def oneAt (st : RedisStore) (key : String) (j : Nat) : Prop :=
  (st key)[j]? = some setSentinel

/-! ### Helper lemmas: words and lists -/

theorem lor_mask_idem {w m : Nat} (h : w ||| m = w) (m2 : Nat) :
    (w ||| m2) ||| m = w ||| m2 := by
  rw [Nat.lor_assoc, Nat.lor_comm m2 m, ← Nat.lor_assoc, h]

theorem getD_set_self {α : Type} {l : List α} {i : Nat} (v d : α) (h : i < l.length) :
    (l.set i v).getD i d = v := by
  simp [List.getD_eq_getElem?_getD, List.getElem?_set_self h]

theorem getD_set_other {α : Type} {l : List α} {i j : Nat} (v d : α) (h : i ≠ j) :
    (l.set i v).getD j d = l.getD j d := by
  simp [List.getD_eq_getElem?_getD, List.getElem?_set_ne h]

theorem set_getD_self {α : Type} (d : α) :
    ∀ {l : List α} {i : Nat}, i < l.length → l.set i (l.getD i d) = l
  | _ :: _, 0, _ => rfl
  | a :: l, i + 1, h => by
    have ih := set_getD_self d (l := l) (i := i) (Nat.lt_of_succ_lt_succ h)
    simpa [List.set] using ih

theorem set_of_getElem? {α : Type} :
    ∀ {l : List α} {i : Nat} {v : α}, l[i]? = some v → l.set i v = l
  | a :: l, 0, v, h => by
    simp at h
    simp [h]
  | a :: l, i + 1, v, h => by
    have ih := set_of_getElem? (l := l) (i := i) (v := v) (by simpa using h)
    simpa [List.set] using ih

theorem getElem?_set_self' {α : Type} {l : List α} {i : Nat} (v : α) (h : i < l.length) :
    (l.set i v)[i]? = some v := List.getElem?_set_self h

/-! ### Helper lemmas: bit sets and the memory put/has loops -/

theorem Set_eq_some {bs bs' : BitSets} {i : Nat} (h : BitSets.Set bs i = some bs') :
    i / 64 < bs.length ∧
      bs' = bs.set (i / 64) ((bs.getD (i / 64) 0) ||| (1 <<< (i % 64))) := by
  unfold BitSets.Set at h
  split at h
  · exact ⟨by assumption, (Option.some_inj.mp h).symm⟩
  · exact absurd h (by simp)

theorem Set_length {bs bs' : BitSets} {i : Nat} (h : BitSets.Set bs i = some bs') :
    bs'.length = bs.length := by
  obtain ⟨_, rfl⟩ := Set_eq_some h
  simp

theorem Set_maskSet_self {bs bs' : BitSets} {i : Nat} (h : BitSets.Set bs i = some bs') :
    maskSet bs' i := by
  obtain ⟨hlt, rfl⟩ := Set_eq_some h
  unfold maskSet
  rw [getD_set_self _ _ hlt]
  rw [Nat.lor_assoc, Nat.or_self]

theorem Set_maskSet_mono {bs bs' : BitSets} {i j : Nat} (h : BitSets.Set bs i = some bs')
    (hm : maskSet bs j) : maskSet bs' j := by
  obtain ⟨hlt, rfl⟩ := Set_eq_some h
  unfold maskSet at hm ⊢
  by_cases hw : i / 64 = j / 64
  · rw [← hw, getD_set_self _ _ hlt]
    rw [hw] at hlt ⊢
    exact lor_mask_idem hm _
  · rw [getD_set_other _ _ hw, hm]

theorem Set_in_range {bs : BitSets} {i : Nat} (h : i < bs.length) :
    BitSets.Set bs i = some (bs.set (i / 64) ((bs.getD (i / 64) 0) ||| (1 <<< (i % 64)))) := by
  unfold BitSets.Set
  exact if_pos (Nat.lt_of_le_of_lt (Nat.div_le_self i 64) h)

theorem putLoop_length {x : List Nat} {l : Nat} :
    ∀ {seeds : List Nat} {bs bs' : BitSets},
      putLoop x l seeds bs = some bs' → bs'.length = bs.length
  | [], _, _, h => by
    simp only [putLoop] at h
    rw [Option.some_inj.mp h]
  | i :: rest, bs, bs', h => by
    simp only [putLoop] at h
    split at h
    · exact absurd h (by simp)
    · split at h
      · exact absurd h (by simp)
      · next bs2 hset => exact (putLoop_length h).trans (Set_length hset)

theorem putLoop_maskSet_mono {x : List Nat} {l j : Nat} :
    ∀ {seeds : List Nat} {bs bs' : BitSets},
      putLoop x l seeds bs = some bs' → maskSet bs j → maskSet bs' j
  | [], _, _, h, hm => by
    simp only [putLoop] at h
    exact (Option.some_inj.mp h) ▸ hm
  | i :: rest, bs, bs', h, hm => by
    simp only [putLoop] at h
    split at h
    · exact absurd h (by simp)
    · split at h
      · exact absurd h (by simp)
      · next bs2 hset => exact putLoop_maskSet_mono h (Set_maskSet_mono hset hm)

theorem putLoop_maskSet_all {x : List Nat} {l : Nat} :
    ∀ {seeds : List Nat} {bs bs' : BitSets},
      putLoop x l seeds bs = some bs' →
      ∀ i ∈ seeds, maskSet bs' (HashData x i % l)
  | [], _, _, _, i, hi => absurd hi (by simp)
  | s :: rest, bs, bs', h, i, hi => by
    simp only [putLoop] at h
    split at h
    · exact absurd h (by simp)
    · split at h
      · exact absurd h (by simp)
      · next bs2 hset =>
        rcases List.mem_cons.mp hi with rfl | hmem
        · exact putLoop_maskSet_mono h (Set_maskSet_self hset)
        · exact putLoop_maskSet_all h i hmem

theorem putLoop_cons_ne_zero {x : List Nat} {l i : Nat} {rest : List Nat}
    {bs bs' : BitSets} (h : putLoop x l (i :: rest) bs = some bs') : l ≠ 0 := by
  intro hl
  simp only [putLoop, if_pos hl] at h
  exact Option.noConfusion h

theorem putLoop_noop {x : List Nat} {l : Nat} (hnz : l ≠ 0) :
    ∀ {seeds : List Nat} {bs : BitSets}, l = bs.length →
      (∀ i ∈ seeds, maskSet bs (HashData x i % l)) →
      putLoop x l seeds bs = some bs
  | [], _, _, _ => rfl
  | s :: rest, bs, hl, hmask => by
    have hidx : HashData x s % l < bs.length := hl ▸ Nat.mod_lt _ (Nat.pos_of_ne_zero hnz)
    have hset := Set_in_range hidx
    have hms : maskSet bs (HashData x s % l) := hmask s (List.mem_cons_self s rest)
    unfold maskSet at hms
    rw [hms] at hset
    rw [set_getD_self 0 (Nat.lt_of_le_of_lt (Nat.div_le_self _ 64) hidx)] at hset
    simp only [putLoop, if_neg hnz, hset]
    exact putLoop_noop hnz hl fun i hi => hmask i (List.mem_cons_of_mem _ hi)

theorem IsSet_true_of_maskSet {bs : BitSets} {i : Nat} (hm : maskSet bs i)
    (h : i / 64 < bs.length) : BitSets.IsSet bs i = some true := by
  unfold BitSets.IsSet
  rw [if_pos h]
  exact congrArg some (decide_eq_true hm)

theorem hasLoop_true {x : List Nat} {l : Nat} {bs : BitSets} (hl : l = bs.length)
    (hnz : l ≠ 0) :
    ∀ {seeds : List Nat}, (∀ i ∈ seeds, maskSet bs (HashData x i % l)) →
      hasLoop x l bs seeds = some true
  | [], _ => rfl
  | s :: rest, hmask => by
    have hidx : HashData x s % l < bs.length := hl ▸ Nat.mod_lt _ (Nat.pos_of_ne_zero hnz)
    have hIs := IsSet_true_of_maskSet (hmask s (List.mem_cons_self s rest))
      (Nat.lt_of_le_of_lt (Nat.div_le_self _ 64) hidx)
    simp only [hasLoop, if_neg hnz, hIs]
    exact hasLoop_true hl hnz fun i hi => hmask i (List.mem_cons_of_mem _ hi)

theorem Put_eq_some {f f' : MemoryBloomFilter} {x : List Nat}
    (h : MemoryBloomFilter.Put f x = some f') :
    ∃ bs', putLoop x f.bs.length (List.range f.k) f.bs = some bs' ∧ f' = ⟨f.k, bs'⟩ := by
  unfold MemoryBloomFilter.Put at h
  cases hp : putLoop x f.bs.length (List.range f.k) f.bs with
  | none => rw [hp] at h; exact absurd h (by simp)
  | some bs' =>
    rw [hp] at h
    exact ⟨bs', rfl, (Option.some_inj.mp h).symm⟩

theorem Put_k {f f' : MemoryBloomFilter} {x : List Nat}
    (h : MemoryBloomFilter.Put f x = some f') : f'.k = f.k := by
  obtain ⟨bs', _, rfl⟩ := Put_eq_some h; rfl

theorem Put_length {f f' : MemoryBloomFilter} {x : List Nat}
    (h : MemoryBloomFilter.Put f x = some f') : f'.bs.length = f.bs.length := by
  obtain ⟨bs', hp, rfl⟩ := Put_eq_some h
  exact putLoop_length hp

theorem Put_maskSet_mono {f f' : MemoryBloomFilter} {x : List Nat} {j : Nat}
    (h : MemoryBloomFilter.Put f x = some f') (hm : maskSet f.bs j) : maskSet f'.bs j := by
  obtain ⟨bs', hp, rfl⟩ := Put_eq_some h
  exact putLoop_maskSet_mono hp hm

theorem memPuts_k :
    ∀ {ys : List (List Nat)} {f f' : MemoryBloomFilter},
      memPuts ys f = some f' → f'.k = f.k
  | [], _, _, h => by rw [Option.some_inj.mp h]
  | y :: rest, f, f', h => by
    simp only [memPuts] at h
    split at h
    · exact absurd h (by simp)
    · next f2 hput => exact (memPuts_k h).trans (Put_k hput)

theorem memPuts_length :
    ∀ {ys : List (List Nat)} {f f' : MemoryBloomFilter},
      memPuts ys f = some f' → f'.bs.length = f.bs.length
  | [], _, _, h => by rw [Option.some_inj.mp h]
  | y :: rest, f, f', h => by
    simp only [memPuts] at h
    split at h
    · exact absurd h (by simp)
    · next f2 hput => exact (memPuts_length h).trans (Put_length hput)

theorem memPuts_maskSet_mono {j : Nat} :
    ∀ {ys : List (List Nat)} {f f' : MemoryBloomFilter},
      memPuts ys f = some f' → maskSet f.bs j → maskSet f'.bs j
  | [], _, _, h, hm => (Option.some_inj.mp h) ▸ hm
  | y :: rest, f, f', h, hm => by
    simp only [memPuts] at h
    split at h
    · exact absurd h (by simp)
    · next f2 hput => exact memPuts_maskSet_mono h (Put_maskSet_mono hput hm)

/-! ### Helper lemmas: the redis put/has loops -/

theorem storeSet_self {st : RedisStore} {key : String} : storeSet st key (st key) = st := by
  funext s
  unfold storeSet
  by_cases h : s = key
  · rw [if_pos h, h]
  · rw [if_neg h]

theorem storeSet_at {st : RedisStore} {key : String} {v : List String} :
    storeSet st key v key = v := if_pos rfl

theorem storeSet_other {st : RedisStore} {key : String} {v : List String} {q : String}
    (h : q ≠ key) : storeSet st key v q = st q := if_neg h

theorem lset_eq_some {st st' : RedisStore} {key : String} {i : Nat} {v : String}
    (h : lset st key i v = some st') :
    i < (st key).length ∧ st' = storeSet st key ((st key).set i v) := by
  unfold lset at h
  split at h
  · exact ⟨by assumption, (Option.some_inj.mp h).symm⟩
  · exact absurd h (by simp)

theorem lset_length {st st' : RedisStore} {key : String} {i : Nat} {v : String}
    (h : lset st key i v = some st') (q : String) : (st' q).length = (st q).length := by
  obtain ⟨_, rfl⟩ := lset_eq_some h
  by_cases hq : q = key
  · rw [hq, storeSet_at]
    simp
  · rw [storeSet_other hq]

theorem lset_oneAt_self {st st' : RedisStore} {key : String} {i : Nat}
    (h : lset st key i setSentinel = some st') : oneAt st' key i := by
  obtain ⟨hlt, rfl⟩ := lset_eq_some h
  unfold oneAt
  rw [storeSet_at]
  exact getElem?_set_self' _ hlt

theorem lset_oneAt_mono {st st' : RedisStore} {key : String} {i : Nat} {q : String} {j : Nat}
    (h : lset st key i setSentinel = some st') (hm : oneAt st q j) : oneAt st' q j := by
  obtain ⟨hlt, rfl⟩ := lset_eq_some h
  unfold oneAt at hm ⊢
  by_cases hq : q = key
  · subst hq
    rw [storeSet_at]
    by_cases hij : i = j
    · subst hij
      exact getElem?_set_self' _ hlt
    · rw [List.getElem?_set_ne hij]
      exact hm
  · rw [storeSet_other hq]
    exact hm

theorem redisPutLoop_length {r : RedisBloomFilter} {x : List Nat} :
    ∀ {seeds : List Nat} {st st' : RedisStore},
      redisPutLoop r x seeds st = some st' → ∀ q, (st' q).length = (st q).length
  | [], _, _, h, q => by rw [← Option.some_inj.mp h]
  | i :: rest, st, st', h, q => by
    simp only [redisPutLoop] at h
    split at h
    · exact absurd h (by simp)
    · split at h
      · exact absurd h (by simp)
      · next st2 hset => exact (redisPutLoop_length h q).trans (lset_length hset q)

theorem redisPutLoop_oneAt_mono {r : RedisBloomFilter} {x : List Nat} {q : String} {j : Nat} :
    ∀ {seeds : List Nat} {st st' : RedisStore},
      redisPutLoop r x seeds st = some st' → oneAt st q j → oneAt st' q j
  | [], _, _, h, hm => (Option.some_inj.mp h) ▸ hm
  | i :: rest, st, st', h, hm => by
    simp only [redisPutLoop] at h
    split at h
    · exact absurd h (by simp)
    · split at h
      · exact absurd h (by simp)
      · next st2 hset => exact redisPutLoop_oneAt_mono h (lset_oneAt_mono hset hm)

theorem redisPutLoop_oneAt_all {r : RedisBloomFilter} {x : List Nat} :
    ∀ {seeds : List Nat} {st st' : RedisStore},
      redisPutLoop r x seeds st = some st' →
      ∀ i ∈ seeds, oneAt st' (RedisBloomFilter.redisKey r) (HashData x i % r.n)
  | [], _, _, _, i, hi => absurd hi (by simp)
  | s :: rest, st, st', h, i, hi => by
    simp only [redisPutLoop] at h
    split at h
    · exact absurd h (by simp)
    · split at h
      · exact absurd h (by simp)
      · next st2 hset =>
        rcases List.mem_cons.mp hi with rfl | hmem
        · exact redisPutLoop_oneAt_mono h (lset_oneAt_self hset)
        · exact redisPutLoop_oneAt_all h i hmem

theorem redisPutLoop_cons_ne_zero {r : RedisBloomFilter} {x : List Nat} {i : Nat}
    {rest : List Nat} {st st' : RedisStore}
    (h : redisPutLoop r x (i :: rest) st = some st') : r.n ≠ 0 := by
  intro hn
  simp only [redisPutLoop, if_pos hn] at h
  exact Option.noConfusion h

theorem redisPutLoop_noop {r : RedisBloomFilter} {x : List Nat} (hnz : r.n ≠ 0) :
    ∀ {seeds : List Nat} {st : RedisStore},
      (∀ i ∈ seeds, oneAt st (RedisBloomFilter.redisKey r) (HashData x i % r.n)) →
      redisPutLoop r x seeds st = some st
  | [], _, _ => rfl
  | s :: rest, st, hmask => by
    have hone := hmask s (List.mem_cons_self s rest)
    unfold oneAt at hone
    have hlt : HashData x s % r.n < (st (RedisBloomFilter.redisKey r)).length := by
      rcases List.getElem?_eq_some.mp hone with ⟨hl, _⟩
      exact hl
    have hset : lset st (RedisBloomFilter.redisKey r) (HashData x s % r.n) setSentinel
        = some st := by
      unfold lset
      rw [if_pos hlt, set_of_getElem? hone, storeSet_self]
    simp only [redisPutLoop, if_neg hnz, hset]
    exact redisPutLoop_noop hnz fun i hi => hmask i (List.mem_cons_of_mem _ hi)

theorem redisHasLoop_true {r : RedisBloomFilter} {x : List Nat} {st : RedisStore}
    (hnz : r.n ≠ 0) :
    ∀ {seeds : List Nat},
      (∀ i ∈ seeds, oneAt st (RedisBloomFilter.redisKey r) (HashData x i % r.n)) →
      redisHasLoop r x st seeds = some true
  | [], _ => rfl
  | s :: rest, hmask => by
    have hone := hmask s (List.mem_cons_self s rest)
    unfold oneAt at hone
    simp only [redisHasLoop, if_neg hnz, lindex, hone]
    simp only [if_true, if_pos]
    exact redisHasLoop_true hnz fun i hi => hmask i (List.mem_cons_of_mem _ hi)

theorem redisPut_eq_some {r : RedisBloomFilter} {x : List Nat} {st st' : RedisStore}
    (h : RedisBloomFilter.Put r x st = some st') :
    r.cli = true ∧ redisPutLoop r x (List.range r.k) st = some st' := by
  unfold RedisBloomFilter.Put at h
  cases hc : r.cli with
  | false => rw [hc] at h; exact absurd h (by simp)
  | true => rw [hc] at h; exact ⟨rfl, by simpa using h⟩

theorem redisPuts_length {r : RedisBloomFilter} :
    ∀ {ys : List (List Nat)} {st st' : RedisStore},
      redisPuts r ys st = some st' → ∀ q, (st' q).length = (st q).length
  | [], _, _, h, q => by rw [← Option.some_inj.mp h]
  | y :: rest, st, st', h, q => by
    simp only [redisPuts] at h
    split at h
    · exact absurd h (by simp)
    · next st2 hput =>
      exact (redisPuts_length h q).trans
        (redisPutLoop_length (redisPut_eq_some hput).2 q)

theorem redisPuts_oneAt_mono {r : RedisBloomFilter} {q : String} {j : Nat} :
    ∀ {ys : List (List Nat)} {st st' : RedisStore},
      redisPuts r ys st = some st' → oneAt st q j → oneAt st' q j
  | [], _, _, h, hm => (Option.some_inj.mp h) ▸ hm
  | y :: rest, st, st', h, hm => by
    simp only [redisPuts] at h
    split at h
    · exact absurd h (by simp)
    · next st2 hput =>
      exact redisPuts_oneAt_mono h
        (redisPutLoop_oneAt_mono (redisPut_eq_some hput).2 hm)

/-! ### Core lemmas behind the claims -/

theorem mem_put_then_has {f f1 f2 : MemoryBloomFilter} {x : List Nat}
    {ys : List (List Nat)} (h1 : MemoryBloomFilter.Put f x = some f1)
    (h2 : memPuts ys f1 = some f2) : MemoryBloomFilter.Has f2 x = some true := by
  obtain ⟨bs1, hp, rfl⟩ := Put_eq_some h1
  have hk2 : f2.k = f.k := (memPuts_k h2).trans rfl
  have hlen2 : f2.bs.length = f.bs.length :=
    (memPuts_length h2).trans (putLoop_length hp)
  unfold MemoryBloomFilter.Has
  rw [hk2, hlen2]
  cases hr : List.range f.k with
  | nil => rfl
  | cons i rest =>
    have hnz : f.bs.length ≠ 0 := putLoop_cons_ne_zero (hr ▸ hp)
    refine hasLoop_true hlen2.symm hnz ?_
    intro j hj
    exact memPuts_maskSet_mono h2 (putLoop_maskSet_all hp j (by rw [hr]; exact hj))

theorem filePut_eq_some {g g1 : FileBloomFilter} {x : List Nat}
    (h : FileBloomFilter.Put g x = some g1) :
    MemoryBloomFilter.Put g.mem x = some g1.mem ∧ g1.target = g.target := by
  unfold FileBloomFilter.Put at h
  cases hm : MemoryBloomFilter.Put g.mem x with
  | none => rw [hm] at h; exact absurd h (by simp)
  | some m1 =>
    rw [hm] at h
    have := Option.some_inj.mp h
    rw [← this]
    exact ⟨rfl, rfl⟩

theorem filePuts_mem :
    ∀ {ys : List (List Nat)} {g g' : FileBloomFilter},
      filePuts ys g = some g' → memPuts ys g.mem = some g'.mem
  | [], _, _, h => by rw [Option.some_inj.mp h]; rfl
  | y :: rest, g, g', h => by
    simp only [filePuts] at h
    split at h
    · exact absurd h (by simp)
    · next g2 hput =>
      simp only [memPuts, (filePut_eq_some hput).1]
      exact filePuts_mem h

theorem redis_put_then_has {r : RedisBloomFilter} {st st1 st2 : RedisStore}
    {x : List Nat} {ys : List (List Nat)} (h1 : RedisBloomFilter.Put r x st = some st1)
    (h2 : redisPuts r ys st1 = some st2) : RedisBloomFilter.Has r x st2 = some true := by
  obtain ⟨hc, hloop⟩ := redisPut_eq_some h1
  unfold RedisBloomFilter.Has
  rw [if_pos hc]
  cases hr : List.range r.k with
  | nil => rfl
  | cons i rest =>
    have hnz : r.n ≠ 0 := redisPutLoop_cons_ne_zero (hr ▸ hloop)
    refine redisHasLoop_true hnz ?_
    intro j hj
    exact redisPuts_oneAt_mono h2
      (redisPutLoop_oneAt_all hloop j (by rw [hr]; exact hj))

theorem mem_put_idem (f : MemoryBloomFilter) (x : List Nat) :
    (MemoryBloomFilter.Put f x).bind (fun f1 => MemoryBloomFilter.Put f1 x)
      = MemoryBloomFilter.Put f x := by
  cases h : MemoryBloomFilter.Put f x with
  | none => rfl
  | some f1 =>
    have hgoal : MemoryBloomFilter.Put f1 x = some f1 := by
      obtain ⟨bs1, hp, rfl⟩ := Put_eq_some h
      have hlen : bs1.length = f.bs.length := putLoop_length hp
      have hloop : putLoop x f.bs.length (List.range f.k) bs1 = some bs1 := by
        cases hr : List.range f.k with
        | nil => rfl
        | cons i rest =>
          have hnz : f.bs.length ≠ 0 := putLoop_cons_ne_zero (hr ▸ hp)
          refine putLoop_noop hnz hlen.symm ?_
          rw [← hr]
          exact putLoop_maskSet_all hp
      show MemoryBloomFilter.Put ⟨f.k, bs1⟩ x = some ⟨f.k, bs1⟩
      unfold MemoryBloomFilter.Put
      show (putLoop x bs1.length (List.range f.k) bs1).map _ = _
      rw [hlen, hloop]
      rfl
    show MemoryBloomFilter.Put f1 x = some f1
    exact hgoal

theorem redis_put_idem (r : RedisBloomFilter) (x : List Nat) (st : RedisStore) :
    (RedisBloomFilter.Put r x st).bind (RedisBloomFilter.Put r x)
      = RedisBloomFilter.Put r x st := by
  cases h : RedisBloomFilter.Put r x st with
  | none => rfl
  | some st1 =>
    obtain ⟨hc, hloop⟩ := redisPut_eq_some h
    show RedisBloomFilter.Put r x st1 = some st1
    unfold RedisBloomFilter.Put
    rw [if_pos hc]
    cases hr : List.range r.k with
    | nil => rfl
    | cons i rest =>
      have hnz : r.n ≠ 0 := redisPutLoop_cons_ne_zero (hr ▸ hloop)
      refine redisPutLoop_noop hnz ?_
      rw [← hr]
      exact redisPutLoop_oneAt_all hloop

theorem putLoop_l1_zero (x : List Nat) (s : Nat) (seeds : List Nat) :
    putLoop x 1 (s :: seeds) [0] = putLoop x 1 seeds [1] := by
  have hset : BitSets.Set [0] (HashData x s % 1) = some [1] := by
    rw [Nat.mod_one]; rfl
  simp [putLoop, hset]

theorem putLoop_l1_one (x : List Nat) :
    ∀ seeds : List Nat, putLoop x 1 seeds [1] = some [1]
  | [] => rfl
  | s :: rest => by
    have hset : BitSets.Set [1] (HashData x s % 1) = some [1] := by
      rw [Nat.mod_one]; rfl
    simp only [putLoop, hset]
    simpa using putLoop_l1_one x rest

theorem hasLoop_l1_one (y : List Nat) :
    ∀ seeds : List Nat, hasLoop y 1 [1] seeds = some true
  | [] => rfl
  | s :: rest => by
    have hIs : BitSets.IsSet [1] (HashData y s % 1) = some true := by
      rw [Nat.mod_one]; rfl
    simp only [hasLoop, hIs]
    simpa using hasLoop_l1_one y rest

/-- Facts about single-word masks used in the `Unset` analysis. -/
theorem lor_eq_of_testBit {w b : Nat} (h : w.testBit b = true) : w ||| 2 ^ b = w := by
  refine Nat.eq_of_testBit_eq fun t => ?_
  rw [Nat.testBit_lor]
  by_cases ht : b = t
  · subst ht
    rw [Nat.testBit_two_pow_self, h]
    rfl
  · rw [Nat.testBit_two_pow_of_ne ht, Bool.or_false]

theorem testBit_false_of_lor_ne {w b : Nat} (h : ¬(w ||| 2 ^ b = w)) :
    w.testBit b = false := by
  cases hb : w.testBit b with
  | false => rfl
  | true => exact absurd (lor_eq_of_testBit hb) h

theorem shiftLeft_one (b : Nat) : 1 <<< b = 2 ^ b := by
  rw [Nat.shiftLeft_eq, Nat.one_mul]

/-- On a single-word bit set every index reduces modulo 1 to bit 0, so a
put writes word `1` regardless of the key's hash value. -/
theorem put_single_word (x : List Nat) (k : Nat) :
    MemoryBloomFilter.Put ⟨k + 1, [0]⟩ x = some ⟨k + 1, [1]⟩ := by
  show (putLoop x 1 (List.range (k + 1)) [0]).map _ = _
  rw [List.range_succ_eq_map, putLoop_l1_zero, putLoop_l1_one]
  rfl

theorem has_single_word (y : List Nat) (k : Nat) :
    MemoryBloomFilter.Has ⟨k, [1]⟩ y = some true := by
  show hasLoop y 1 [1] (List.range k) = some true
  exact hasLoop_l1_one y _

theorem newRedis_fst (n k : Nat) (st : RedisStore) :
    (NewRedisBloomFilter n k st).1 = ⟨true, n, k⟩ := by
  show (if (st (RedisBloomFilter.redisKey ⟨true, n, k⟩)).length ≠ n then
        ((⟨true, n, k⟩ : RedisBloomFilter),
          storeSet st (RedisBloomFilter.redisKey ⟨true, n, k⟩)
            (List.replicate n unsetSentinel))
      else (⟨true, n, k⟩, st)).1
    = (⟨true, n, k⟩ : RedisBloomFilter)
  split
  · rfl
  · rfl

/-! ### The claims -/

/-- C3: for every backend, once `put(x)` has been performed, `has(x)`
returns `true` after any further interleaving of puts: bits are only
ever set, never cleared, by `put` and `has`. -/
theorem claim_c3_no_false_negatives :
    (∀ (f f1 f2 : MemoryBloomFilter) (x : List Nat) (ys : List (List Nat)),
        MemoryBloomFilter.Put f x = some f1 → memPuts ys f1 = some f2 →
        MemoryBloomFilter.Has f2 x = some true)
    ∧ (∀ (g g1 g2 : FileBloomFilter) (x : List Nat) (ys : List (List Nat)),
        FileBloomFilter.Put g x = some g1 → filePuts ys g1 = some g2 →
        FileBloomFilter.Has g2 x = some true)
    ∧ (∀ (r : RedisBloomFilter) (st st1 st2 : RedisStore) (x : List Nat)
        (ys : List (List Nat)),
        RedisBloomFilter.Put r x st = some st1 → redisPuts r ys st1 = some st2 →
        RedisBloomFilter.Has r x st2 = some true) := by
  refine ⟨fun f f1 f2 x ys h1 h2 => mem_put_then_has h1 h2,
    fun g g1 g2 x ys h1 h2 => ?_,
    fun r st st1 st2 x ys h1 h2 => redis_put_then_has h1 h2⟩
  show MemoryBloomFilter.Has g2.mem x = some true
  exact mem_put_then_has (filePut_eq_some h1).1 (filePuts_mem h2)

/-- C7: for every backend, calling `put(x)` twice leaves the bit-vector
state exactly as one call does — the second call changes nothing. -/
theorem claim_c7_put_idempotent :
    (∀ (f : MemoryBloomFilter) (x : List Nat),
        (MemoryBloomFilter.Put f x).bind (fun f1 => MemoryBloomFilter.Put f1 x)
          = MemoryBloomFilter.Put f x)
    ∧ (∀ (g : FileBloomFilter) (x : List Nat),
        (FileBloomFilter.Put g x).bind (fun g1 => FileBloomFilter.Put g1 x)
          = FileBloomFilter.Put g x)
    ∧ (∀ (r : RedisBloomFilter) (x : List Nat) (st : RedisStore),
        (RedisBloomFilter.Put r x st).bind (fun st1 => RedisBloomFilter.Put r x st1)
          = RedisBloomFilter.Put r x st) := by
  refine ⟨mem_put_idem, ?_, redis_put_idem⟩
  intro g x
  have hmem := mem_put_idem g.mem x
  cases hm : MemoryBloomFilter.Put g.mem x with
  | none =>
    unfold FileBloomFilter.Put
    rw [hm]
    rfl
  | some m1 =>
    rw [hm] at hmem
    have h1 : MemoryBloomFilter.Put m1 x = some m1 := hmem
    unfold FileBloomFilter.Put
    rw [hm]
    show (MemoryBloomFilter.Put m1 x).map _ = _
    rw [h1]

/-- C4: closing a file-backed filter flushes its word array to the
target path, and constructing a new file filter at the same path with
the same parameters reproduces every membership answer the original
filter gave before the close. -/
theorem claim_c4_file_roundtrip :
    ∀ (tg : String) (k n : Nat) (bs : BitSets) (fs : FileSystem) (x : List Nat),
      FileBloomFilter.Has
          (NewFileBloomFilter tg n k ((FileBloomFilter.Close ⟨⟨k, bs⟩, tg⟩ fs).2)) x
        = FileBloomFilter.Has ⟨⟨k, bs⟩, tg⟩ x := by
  intro tg k n bs fs x
  have hs : FileBloomFilter.store ⟨⟨k, bs⟩, tg⟩ fs tg = some bs := by
    show (if tg = tg then some bs else fs tg) = some bs
    rw [if_pos rfl]
  show FileBloomFilter.Has
      (FileBloomFilter.reStore ⟨NewMemoryBloomFilter n k, tg⟩
        (FileBloomFilter.store ⟨⟨k, bs⟩, tg⟩ fs)) x = _
  unfold FileBloomFilter.reStore
  rw [hs]
  rfl

/-- C8: `Close` on a remote-backed filter issues no remote command: the
store is exactly the one from before the close (same lists, lengths and
elements under every key); only the local client reference is dropped. -/
theorem claim_c8_close_touches_no_remote_state :
    ∀ (r : RedisBloomFilter) (st : RedisStore),
      (RedisBloomFilter.Close r st).2 = st
      ∧ (∀ q, ((RedisBloomFilter.Close r st).2 q).length = (st q).length)
      ∧ (∀ q j, lindex (RedisBloomFilter.Close r st).2 q j = lindex st q j)
      ∧ (RedisBloomFilter.Close r st).1 = ⟨false, r.n, r.k⟩ :=
  fun _ _ => ⟨rfl, fun _ => rfl, fun _ _ => rfl, rfl⟩

/-- C9: after `Close`, a memory- or file-backed filter with `k ≥ 1`
faults on any `Put` or `Has` (the bit slice is released, so the modulus
`len(bs)` is zero) instead of answering. -/
theorem claim_c9_use_after_close_faults :
    (∀ (f : MemoryBloomFilter) (x : List Nat), 1 ≤ f.k →
        MemoryBloomFilter.Put (MemoryBloomFilter.Close f) x = none
        ∧ MemoryBloomFilter.Has (MemoryBloomFilter.Close f) x = none)
    ∧ (∀ (g : FileBloomFilter) (fs : FileSystem) (x : List Nat), 1 ≤ g.mem.k →
        FileBloomFilter.Put (FileBloomFilter.Close g fs).1 x = none
        ∧ FileBloomFilter.Has (FileBloomFilter.Close g fs).1 x = none) := by
  have hput : ∀ (k : Nat) (x : List Nat), 1 ≤ k →
      MemoryBloomFilter.Put ⟨k, []⟩ x = none := by
    intro k x hk
    obtain ⟨m, rfl⟩ : ∃ m, k = m + 1 := ⟨k - 1, by omega⟩
    show (putLoop x 0 (List.range (m + 1)) []).map _ = none
    rw [List.range_succ_eq_map]
    rfl
  have hhas : ∀ (k : Nat) (x : List Nat), 1 ≤ k →
      MemoryBloomFilter.Has ⟨k, []⟩ x = none := by
    intro k x hk
    obtain ⟨m, rfl⟩ : ∃ m, k = m + 1 := ⟨k - 1, by omega⟩
    show hasLoop x 0 [] (List.range (m + 1)) = none
    rw [List.range_succ_eq_map]
    rfl
  refine ⟨fun f x hk => ⟨hput f.k x hk, hhas f.k x hk⟩, fun g fs x hk => ⟨?_, hhas g.mem.k x hk⟩⟩
  show (MemoryBloomFilter.Put ⟨g.mem.k, []⟩ x).map _ = none
  rw [hput g.mem.k x hk]
  rfl

/-- C9 witness: a concrete closed filter faults on `Put` and `Has`. -/
theorem claim_c9_witness :
    MemoryBloomFilter.Put (MemoryBloomFilter.Close (NewMemoryBloomFilter 64 1)) [0] = none
    ∧ FileBloomFilter.Has
        (FileBloomFilter.Close (NewFileBloomFilter tgtPath 64 1 emptyFS) emptyFS).1 [0]
      = none :=
  ⟨(claim_c9_use_after_close_faults.1 (NewMemoryBloomFilter 64 1) [0] (by decide)).1,
   (claim_c9_use_after_close_faults.2 (NewFileBloomFilter tgtPath 64 1 emptyFS) emptyFS [0]
      (by decide)).2⟩

/-- C10: `BitSets.Unset` toggles rather than clears: on a clear bit it
sets the bit (so `IsSet` answers `true` afterwards), applying it twice
restores the original word (involution), and it is not idempotent. -/
theorem claim_c10_unset_is_a_toggle :
    (∀ (bs : BitSets) (i : Nat), i / 64 < bs.length →
        BitSets.IsSet bs i = some false →
        (BitSets.Unset bs i).bind (fun b => BitSets.IsSet b i) = some true)
    ∧ (∀ (bs : BitSets) (i : Nat), i / 64 < bs.length →
        (BitSets.Unset bs i).bind (fun b => BitSets.Unset b i) = some bs)
    ∧ (BitSets.Unset [0] 3).bind (fun b => BitSets.Unset b 3) ≠ BitSets.Unset [0] 3 := by
  refine ⟨?_, ?_, by decide⟩
  · intro bs i hlt hIs
    unfold BitSets.IsSet at hIs
    rw [if_pos hlt] at hIs
    have hne : ¬((bs.getD (i / 64) 0) ||| (1 <<< (i % 64)) = bs.getD (i / 64) 0) :=
      of_decide_eq_false (Option.some_inj.mp hIs)
    rw [shiftLeft_one] at hne
    have hbit : (bs.getD (i / 64) 0).testBit (i % 64) = false := testBit_false_of_lor_ne hne
    unfold BitSets.Unset
    rw [if_pos hlt]
    show BitSets.IsSet (bs.set (i / 64) ((bs.getD (i / 64) 0) ^^^ (1 <<< (i % 64)))) i
      = some true
    unfold BitSets.IsSet
    rw [if_pos (by simpa using hlt)]
    refine congrArg some (decide_eq_true ?_)
    rw [getD_set_self _ _ hlt, shiftLeft_one]
    refine lor_eq_of_testBit ?_
    rw [Nat.testBit_xor, hbit, Nat.testBit_two_pow_self]
    rfl
  · intro bs i hlt
    unfold BitSets.Unset
    rw [if_pos hlt]
    show BitSets.Unset (bs.set (i / 64) ((bs.getD (i / 64) 0) ^^^ (1 <<< (i % 64)))) i
      = some bs
    unfold BitSets.Unset
    rw [if_pos (by simpa using hlt)]
    rw [getD_set_self _ _ hlt]
    rw [Nat.xor_assoc, Nat.xor_self, Nat.xor_zero]
    rw [List.set_set]
    rw [set_getD_self 0 hlt]

/-- C10 witness: toggling bit 3 of the zero word sets it, and toggling
twice restores the word. -/
theorem claim_c10_witness :
    (BitSets.Unset [0] 3).bind (fun b => BitSets.IsSet b 3) = some true
    ∧ (BitSets.Unset [0] 3).bind (fun b => BitSets.Unset b 3) = some [0] :=
  ⟨claim_c10_unset_is_a_toggle.1 [0] 3 (by decide) (by decide),
   claim_c10_unset_is_a_toggle.2.1 [0] 3 (by decide)⟩

/-- One put through a freshly constructed `(1, 1)` file filter. -/
theorem file_put_single (x : List Nat) :
    FileBloomFilter.Put (NewFileBloomFilter tgtPath 1 1 emptyFS) x
      = some ⟨⟨1, [1]⟩, tgtPath⟩ := by
  have h1 : MemoryBloomFilter.Put ⟨1, [0]⟩ x = some ⟨1, [1]⟩ := put_single_word x 0
  show (MemoryBloomFilter.Put ⟨1, [0]⟩ x).map _ = _
  rw [h1]
  rfl

/-- One put through a freshly constructed `(1, 1)` remote filter: the
single index reduces modulo 1 to position 0. -/
theorem redis_put_single (x : List Nat) :
    RedisBloomFilter.Put ⟨true, 1, 1⟩ x c3store0 = some c3store1 := by
  have hset : lset c3store0 (RedisBloomFilter.redisKey ⟨true, 1, 1⟩) (HashData x 0 % 1)
      setSentinel = some c3store1 := by
    rw [Nat.mod_one]
    show (if 0 < (c3store0 (redisKeyStr 1 1)).length then
        some (storeSet c3store0 (redisKeyStr 1 1)
          ((c3store0 (redisKeyStr 1 1)).set 0 setSentinel))
      else none) = some c3store1
    have hv : c3store0 (redisKeyStr 1 1) = List.replicate 1 unsetSentinel := storeSet_at
    rw [hv]
    rfl
  show (if (1 : Nat) = 0 then none else
      match lset c3store0 (RedisBloomFilter.redisKey ⟨true, 1, 1⟩) (HashData x 0 % 1)
          setSentinel with
      | none => none
      | some st2 => redisPutLoop ⟨true, 1, 1⟩ x [] st2) = some c3store1
  rw [hset]
  rfl

/-- C3 witness: concrete `(n, k) = (1, 1)` instances of all three
backends after one put. -/
theorem claim_c3_witness :
    MemoryBloomFilter.Has ⟨1, [1]⟩ [97] = some true
    ∧ FileBloomFilter.Has ⟨⟨1, [1]⟩, tgtPath⟩ [97] = some true
    ∧ RedisBloomFilter.Has ⟨true, 1, 1⟩ [97] c3store1 = some true :=
  ⟨claim_c3_no_false_negatives.1 (NewMemoryBloomFilter 1 1) ⟨1, [1]⟩ ⟨1, [1]⟩ [97] []
      (put_single_word [97] 0) rfl,
   claim_c3_no_false_negatives.2.1 (NewFileBloomFilter tgtPath 1 1 emptyFS)
      ⟨⟨1, [1]⟩, tgtPath⟩ ⟨⟨1, [1]⟩, tgtPath⟩ [97] [] (file_put_single [97]) rfl,
   claim_c3_no_false_negatives.2.2 ⟨true, 1, 1⟩ c3store0 c3store1 c3store1 [97] []
      (redis_put_single [97]) rfl⟩

/-- C6: constructing a remote filter whose remote list length differs
from `n` deletes the list and recreates it with exactly `n` elements,
each the unset sentinel (which differs from the set sentinel, so every
index tests unset); when the length already equals `n` the store is
untouched. -/
theorem claim_c6_remote_reinitializes :
    (∀ (st : RedisStore) (n k : Nat),
        ((st (redisKeyStr n k)).length ≠ n →
            (NewRedisBloomFilter n k st).2 (redisKeyStr n k)
                = List.replicate n unsetSentinel
            ∧ ((NewRedisBloomFilter n k st).2 (redisKeyStr n k)).length = n
            ∧ (∀ i, i < n →
                lindex (NewRedisBloomFilter n k st).2 (redisKeyStr n k) i
                  = some unsetSentinel)
            ∧ (∀ q, q ≠ redisKeyStr n k → (NewRedisBloomFilter n k st).2 q = st q))
        ∧ ((st (redisKeyStr n k)).length = n → (NewRedisBloomFilter n k st).2 = st))
    ∧ unsetSentinel ≠ setSentinel := by
  have hsnd : ∀ (st : RedisStore) (n k : Nat),
      (NewRedisBloomFilter n k st).2
        = if (st (redisKeyStr n k)).length ≠ n then
            storeSet st (redisKeyStr n k) (List.replicate n unsetSentinel)
          else st := by
    intro st n k
    have hkey : RedisBloomFilter.redisKey (⟨true, n, k⟩ : RedisBloomFilter)
        = redisKeyStr n k := rfl
    show (if (st (RedisBloomFilter.redisKey ⟨true, n, k⟩)).length ≠ n then
          ((⟨true, n, k⟩ : RedisBloomFilter),
            storeSet st (RedisBloomFilter.redisKey ⟨true, n, k⟩)
              (List.replicate n unsetSentinel))
        else (⟨true, n, k⟩, st)).2 = _
    rw [hkey]
    split
    · rfl
    · rfl
  refine ⟨fun st n k => ⟨fun hne => ?_, fun heq => ?_⟩, by decide⟩
  · have h2 := hsnd st n k
    rw [if_pos hne] at h2
    refine ⟨?_, ?_, ?_, ?_⟩
    · rw [h2, storeSet_at]
    · rw [h2, storeSet_at, List.length_replicate]
    · intro i hi
      unfold lindex
      rw [h2, storeSet_at]
      exact List.getElem?_replicate_of_lt hi
    · intro q hq
      rw [h2]
      exact storeSet_other hq
  · have h2 := hsnd st n k
    rw [if_neg (fun hq => hq heq)] at h2
    exact h2

set_option maxRecDepth 100000 in
/-- C6 witness: a fresh store has length 0 under the derived key, so a
`(2, 1)` construction recreates the list as two unset sentinels. -/
theorem claim_c6_witness :
    (NewRedisBloomFilter 2 1 emptyStore).2 (redisKeyStr 2 1)
        = List.replicate 2 unsetSentinel
    ∧ lindex (NewRedisBloomFilter 2 1 emptyStore).2 (redisKeyStr 2 1) 1
        = some unsetSentinel :=
  ⟨((claim_c6_remote_reinitializes.1 emptyStore 2 1).1 (by decide)).1,
   (((claim_c6_remote_reinitializes.1 emptyStore 2 1).1 (by decide)).2.2.1) 1 (by decide)⟩

set_option maxRecDepth 100000 in
/-- C5 counterexample: construction with `n = 0` does not fail — the
memory constructor returns an ordinary filter (one zero word), and the
filter then serves queries: after putting `[97]`, `has [98]` answers
`true` (every index reduces modulo 1 to bit 0). -/
theorem claim_c5_counterexample :
    NewMemoryBloomFilter 0 5 = ⟨5, [0]⟩
    ∧ (MemoryBloomFilter.Put (NewMemoryBloomFilter 0 5) [97]).bind
        (fun f => MemoryBloomFilter.Has f [98]) = some true := by
  refine ⟨rfl, ?_⟩
  have h0 : MemoryBloomFilter.Put (NewMemoryBloomFilter 0 5) [97] = some ⟨5, [1]⟩ :=
    put_single_word [97] 4
  rw [h0]
  show MemoryBloomFilter.Has ⟨5, [1]⟩ [98] = some true
  exact has_single_word [98] 5

set_option maxRecDepth 100000 in
/-- C5 amended: no backend validates `(n, k)` at construction — the
constructors are total and return a filter with the given parameters.
The invalid parameters surface only afterwards: a memory/file filter
with `n = 0` answers every `has` with `true` once anything was put, and
a remote filter with `n = 0` and `k ≥ 1` faults (division by zero) on
its first put. -/
theorem claim_c5_amended :
    (∀ n k : Nat, NewMemoryBloomFilter n k = ⟨k, List.replicate (n / 64 + 1) 0⟩)
    ∧ (∀ (k : Nat) (x y : List Nat),
        (MemoryBloomFilter.Put (NewMemoryBloomFilter 0 (k + 1)) x).bind
          (fun f => MemoryBloomFilter.Has f y) = some true)
    ∧ (∀ (n k : Nat) (st : RedisStore), (NewRedisBloomFilter n k st).1 = ⟨true, n, k⟩)
    ∧ (∀ (k : Nat) (x : List Nat) (st st2 : RedisStore),
        RedisBloomFilter.Put (NewRedisBloomFilter 0 (k + 1) st).1 x st2 = none) := by
  refine ⟨fun n k => rfl, fun k x y => ?_, newRedis_fst, fun k x st st2 => ?_⟩
  · have h0 : MemoryBloomFilter.Put (NewMemoryBloomFilter 0 (k + 1)) x
        = some ⟨k + 1, [1]⟩ := put_single_word x k
    rw [h0]
    show MemoryBloomFilter.Has ⟨k + 1, [1]⟩ y = some true
    exact has_single_word y (k + 1)
  · rw [newRedis_fst]
    show redisPutLoop ⟨true, 0, k + 1⟩ x (List.range (k + 1)) st2 = none
    rw [List.range_succ_eq_map]
    rfl

set_option maxRecDepth 1000000 in
/-- C1: the spec says every derived bit index equals the 64-bit hash of
the SHA-256 digest reduced modulo `n`, for every backend.  The
memory/file backends instead reduce modulo `len(filter.bs) = n/64 + 1`:
with `(n, k) = (2, 1)` and key `[98]` the code derives index 0 (one
word, so everything reduces modulo 1) and sets bit 0, while the hash of
`[98]` under seed 0 reduced modulo `n = 2` is 1. -/
theorem claim_c1_memory_index_not_reduced_mod_n :
    (NewMemoryBloomFilter 2 1).bs.length = 1
    ∧ MemoryBloomFilter.Put (NewMemoryBloomFilter 2 1) [98] = some ⟨1, [1]⟩
    ∧ HashData [98] 0 % (NewMemoryBloomFilter 2 1).bs.length = 0
    ∧ HashData [98] 0 % 2 = 1
    ∧ HashData [98] 0 % (NewMemoryBloomFilter 2 1).bs.length ≠ HashData [98] 0 % 2 := by
  have h2 : MemoryBloomFilter.Put (NewMemoryBloomFilter 2 1) [98] = some ⟨1, [1]⟩ :=
    put_single_word [98] 0
  have h3 : HashData [98] 0 % (NewMemoryBloomFilter 2 1).bs.length = 0 := Nat.mod_one _
  have h4 : HashData [98] 0 % 2 = 1 := by decide
  exact ⟨rfl, h2, h3, h4, by rw [h3, h4]; decide⟩

set_option maxRecDepth 1000000 in
/-- C2: with identical `(n, k) = (2, 1)` and the identical single put of
key `[98]`, the memory and file backends answer `has [1]` with `true`
(their modulus is the word count 1, so all keys collide on bit 0) while
the remote backend answers `false` (its modulus is `n = 2`, key `[98]`
hashes to residue 1 and key `[1]` to residue 0), so the backends do not
agree. -/
theorem claim_c2_backends_disagree :
    (MemoryBloomFilter.Put (NewMemoryBloomFilter 2 1) [98]).bind
        (fun f => MemoryBloomFilter.Has f [1]) = some true
    ∧ (FileBloomFilter.Put (NewFileBloomFilter tgtPath 2 1 emptyFS) [98]).bind
        (fun g => FileBloomFilter.Has g [1]) = some true
    ∧ (RedisBloomFilter.Put (NewRedisBloomFilter 2 1 emptyStore).1 [98]
          (NewRedisBloomFilter 2 1 emptyStore).2).bind
        (fun st => RedisBloomFilter.Has (NewRedisBloomFilter 2 1 emptyStore).1 [1] st)
      = some false := by
  refine ⟨?_, ?_, by decide⟩
  · have h0 : MemoryBloomFilter.Put (NewMemoryBloomFilter 2 1) [98] = some ⟨1, [1]⟩ :=
      put_single_word [98] 0
    rw [h0]
    show MemoryBloomFilter.Has ⟨1, [1]⟩ [1] = some true
    exact has_single_word [1] 1
  · have hg : FileBloomFilter.Put (NewFileBloomFilter tgtPath 2 1 emptyFS) [98]
        = some ⟨⟨1, [1]⟩, tgtPath⟩ := by
      have h1 : MemoryBloomFilter.Put ⟨1, [0]⟩ [98] = some ⟨1, [1]⟩ :=
        put_single_word [98] 0
      show (MemoryBloomFilter.Put ⟨1, [0]⟩ [98]).map _ = _
      rw [h1]
      rfl
    rw [hg]
    show MemoryBloomFilter.Has ⟨1, [1]⟩ [1] = some true
    exact has_single_word [1] 1

end FilterCompare
